import Mathlib

/-!
Verification of the HTML-extraction core of the BTU classroom scraper
(`main.py`).  The six extraction functions (`parse_num`, `parse_courses`,
`extract_course_urls`, `parse_scores`, `parse_files`, `parse_groups`) are
embedded shallowly: Python strings are `List Char`, and the results of the
BeautifulSoup selector calls each function performs are the fields of the
input structures, documented field by field.  Python builtins used by the
code (`str.strip`, `str.replace`, `str.lower`, `float`, `str` on floats,
`re.search` for the one fixed pattern, `urllib.parse.urlparse/urljoin`)
are modelled by the `py*`/url functions below, restricted to the decimal
and ASCII subsets the scraper meets.

Python float values are modelled exactly by canonical scaled decimals
(`Dec`): every float this code ever builds comes from `float` applied to a
short decimal literal, and equality of such values coincides with equality
of their canonical decimal forms (IEEE rounding never has to be modelled
because no float arithmetic occurs in the extraction core).
-/

/-- Python strings are modelled as lists of characters. -/
abbrev Str := List Char

/-- Model of the whitespace set of Python `str.strip()` (ASCII subset:
space, tab, newline, carriage return, vertical tab, form feed). -/
def isPySpace (c : Char) : Bool :=
  c == ' ' || c == '\t' || c == '\n' || c == '\r' ||
  c == Char.ofNat 11 || c == Char.ofNat 12

/-- Drop trailing characters satisfying `p` (the right half of `strip`). -/
def dropTrail (p : Char → Bool) (l : Str) : Str :=
  (l.reverse.dropWhile p).reverse

/-- Model of Python `str.strip()`: drop leading and trailing whitespace. -/
def pyStripL (l : Str) : Str :=
  dropTrail isPySpace (l.dropWhile isPySpace)

/-- Model of Python `str.replace(",", ".")`: the pattern is a single
character, so the replacement is a character map. -/
def commaToDot (l : Str) : Str :=
  l.map (fun c => if c == ',' then '.' else c)

/-- Model of Python `str.lower()` (ASCII subset). -/
def pyLower (l : Str) : Str := l.map Char.toLower

/-- ASCII decimal digit test (the digits Python `float` accepts here). -/
def isDigitC (c : Char) : Bool := 48 ≤ c.toNat && c.toNat ≤ 57

/-- Numeric value of a big-endian ASCII digit string (as `float` reads it). -/
def digitsVal (l : Str) : Nat :=
  l.foldl (fun a c => 10 * a + (c.toNat - 48)) 0

/-- A Python float value, as the exact scaled decimal `mant / 10 ^ exp`.
Canonical form (which every model function returns) strips factors of ten:
`exp = 0` or `10 ∤ mant`.  Float equality on the values this scraper
builds is equality of canonical forms. -/
structure Dec where
  mant : Int
  exp : Nat
deriving DecidableEq

/-- Strip trailing decimal zeros (`fuel`-driven; `fuel ≥ exp` suffices). -/
def decNormF : Nat → Int → Nat → Dec
  | 0, m, e => ⟨m, e⟩
  | _ + 1, m, 0 => ⟨m, 0⟩
  | fuel + 1, m, e + 1 =>
    if m % 10 = 0 then decNormF fuel (m / 10) e else ⟨m, e + 1⟩

/-- Canonical scaled decimal with value `m / 10 ^ e`. -/
def decNorm (m : Int) (e : Nat) : Dec := decNormF e m e

/-- Model of Python `float(txt)` on an unsigned literal: an optional single
point with ASCII digits around it, at least one digit in total.  (The
`inf`/`nan`/exponent/underscore forms of `float` never reach this code and
are outside the model.) -/
def pyFloatUnsigned? (l : Str) : Option Dec :=
  let ip := l.takeWhile (fun c => c ≠ '.')
  match l.dropWhile (fun c => c ≠ '.') with
  | [] =>
    if ip ≠ [] ∧ ip.all isDigitC then some ⟨(digitsVal ip : Int), 0⟩ else none
  | _ :: fp =>
    if (ip ≠ [] ∨ fp ≠ []) ∧ ip.all isDigitC ∧ fp.all isDigitC then
      some (decNorm ((digitsVal ip : Int) * 10 ^ fp.length + (digitsVal fp : Int)) fp.length)
    else none

/-- Model of Python `float(txt)`: optional sign, then an unsigned literal. -/
def pyFloat? (l : Str) : Option Dec :=
  match l with
  | [] => none
  | c :: r =>
    if c = '+' then pyFloatUnsigned? r
    else if c = '-' then (pyFloatUnsigned? r).map (fun d => ⟨-d.mant, d.exp⟩)
    else pyFloatUnsigned? (c :: r)

/-- The `float | str | None` union that `parse_num` produces. -/
inductive PyVal where
  | none : PyVal
  | num : Dec → PyVal
  | str : Str → PyVal
deriving DecidableEq

/-- Embedding of `parse_num` (main.py, lines 87-94): `None` input is
returned as is; otherwise the text is stripped, commas are replaced by
periods, and `float` conversion is attempted; on failure the (re-)stripped
text is returned. -/
def parse_num : Option Str → PyVal
  | Option.none => PyVal.none
  | Option.some t =>
    let txt := commaToDot (pyStripL t)
    match pyFloat? txt with
    | Option.some q => PyVal.num q
    | Option.none => PyVal.str (pyStripL txt)

example : parse_num (some "28,5".data) = PyVal.num ⟨285, 1⟩ := by decide
example : parse_num (some "  60 ".data) = PyVal.num ⟨60, 0⟩ := by decide
example : parse_num (some "30.0".data) = PyVal.num ⟨30, 0⟩ := by decide
example : parse_num (some "".data) = PyVal.str [] := by decide
example : parse_num (some "A+".data) = PyVal.str "A+".data := by decide
example : parse_num (some "-2,50".data) = PyVal.num ⟨-25, 1⟩ := by decide
example : parse_num Option.none = PyVal.none := by decide

/-! ## URL helpers (model of urllib.parse as used by the scraper) -/

/-- Valid characters of a URL scheme after the leading letter. -/
def isSchemeChar (c : Char) : Bool :=
  c.isAlpha || isDigitC c || c == '+' || c == '-' || c == '.'

/-- The scheme of a URL as `urllib.parse.urlparse` reads it (the part
before the first `:` when it is a well-formed scheme), or `[]`. -/
def schemeOf (l : Str) : Str :=
  let pre := l.takeWhile (fun c => c ≠ ':')
  if pre.length < l.length ∧ pre ≠ [] ∧ pre.all isSchemeChar ∧
      (pre.headD 'a').isAlpha then pre
  else []

/-- The rest of a URL after its scheme marker, or the URL itself. -/
def afterScheme (l : Str) : Str :=
  if schemeOf l = [] then l else (l.dropWhile (fun c => c ≠ ':')).drop 1

/-- Model of `urllib.parse.urlparse(url).netloc`: nonempty exactly when the
(scheme-stripped) URL starts with `//`. -/
def netlocOf (l : Str) : Str :=
  let r := afterScheme l
  if ['/', '/'].isPrefixOf r then
    (r.drop 2).takeWhile (fun c => !(c == '/' || c == '?' || c == '#'))
  else []

/-- The base the scraper joins against (`BASE_URL` in main.py). -/
def BASE_URL : Str := "https://classroom.btu.edu.ge/en/student/me/courses".data

/-- Origin of `BASE_URL` (scheme and authority). -/
def ORIGIN : Str := "https://classroom.btu.edu.ge".data

/-- `BASE_URL` with its last path segment removed, for relative joins. -/
def BASE_DIR : Str := "https://classroom.btu.edu.ge/en/student/me/".data

/-- Model of `urllib.parse.urljoin(BASE_URL, url)` on the URL shapes the
portal emits: absolute URLs and scheme-carrying URLs pass through,
`//`-URLs inherit the scheme, absolute paths attach to the origin, and
everything else is resolved against the base directory. -/
def urljoinBase (url : Str) : Str :=
  if url = [] then BASE_URL
  else if schemeOf url ≠ [] then url
  else if ['/', '/'].isPrefixOf url then "https:".data ++ url
  else if url.headD ' ' = '/' then ORIGIN ++ url
  else BASE_DIR ++ url

example : urljoinBase "/ge/course/123".data =
    "https://classroom.btu.edu.ge/ge/course/123".data := by decide
example : netlocOf "https://x.y/z".data = "x.y".data := by decide
example : netlocOf "/relative/path".data = [] := by decide

/-! ## parse_courses (main.py, lines 98-126)

The input structure records what the function's BeautifulSoup calls see:
`table` is `soup.select_one("table.table.table-striped.table-bordered.table-hover.fluid")`
(absent table gives `Option.none`); its payload is `table.find("tbody")`
(absent tbody gives `Option.none`); the innermost list is
`tbody.find_all("tr")`, one `CRow` per row, where `tds` is the row's
`tr.find_all("td")`, a cell's `text` is `td.get_text(strip=True)` and its
`firstA` is `td.find("a")` (text and optional `href` attribute). -/

/-- An `<a>` element as the scraper reads it. -/
structure Anchor where
  text : Str
  href : Option Str
deriving DecidableEq

/-- One `<td>` of the course table. -/
structure CCell where
  text : Str
  firstA : Option Anchor
deriving DecidableEq

/-- One `<tr>` of the course table body. -/
structure CRow where
  tds : List CCell
deriving DecidableEq

/-- The course-listing document, reduced to what `parse_courses` queries. -/
structure CoursePage where
  table : Option (Option (List CRow))
deriving DecidableEq

/-- One course summary dict produced by `parse_courses`. -/
structure Course where
  name : Str
  grade : PyVal
  ects : PyVal
  url : Option Str
deriving DecidableEq

/-- Embedding of the course-row URL fixup: `url = name_a["href"] if ...`,
then `if url and not urlparse(url).netloc: url = urljoin(BASE_URL, url)`. -/
def resolveCourseUrl (u : Option Str) : Option Str :=
  match u with
  | Option.none => Option.none
  | Option.some h =>
    if h ≠ [] ∧ netlocOf h = [] then Option.some (urljoinBase h) else Option.some h

/-- Embedding of the row loop of `parse_courses`: a two-cell row with an
empty first cell re-assigns the running total; a six-cell row appends a
course (name and href from the third cell's first anchor, falling back to
the cell text; grade from the fourth cell; ECTS from the sixth); every
other row is skipped. -/
def courseRowsLoop : List CRow → PyVal → List Course × PyVal
  | [], tot => ([], tot)
  | r :: rs, tot =>
    match r.tds with
    | [t0, t1] =>
      if t0.text = [] then courseRowsLoop rs (parse_num (Option.some t1.text))
      else courseRowsLoop rs tot
    | [_, _, t2, t3, _, t5] =>
      let name := match t2.firstA with
        | Option.some a => a.text
        | Option.none => t2.text
      let url := resolveCourseUrl (t2.firstA.bind Anchor.href)
      let c : Course :=
        ⟨name, parse_num (Option.some t3.text), parse_num (Option.some t5.text), url⟩
      let p := courseRowsLoop rs tot
      (c :: p.1, p.2)
    | _ => courseRowsLoop rs tot

/-- Embedding of `parse_courses`: absent marker table or absent tbody give
`([], None)`; otherwise the row loop runs with total initialised to `None`. -/
def parse_courses (p : CoursePage) : List Course × PyVal :=
  match p.table with
  | Option.none => ([], PyVal.none)
  | Option.some Option.none => ([], PyVal.none)
  | Option.some (Option.some rows) => courseRowsLoop rows PyVal.none

/-! ## extract_course_urls (main.py, lines 128-147)

`tabHrefs` models `soup.select_one("#course_tabs")` (absent container
gives `Option.none`) together with the `href` values of the container's
`find_all("a", href=True)` in document order; `syllabusFileHref` models
the `href` of `soup.select_one('a[href*="courseSilabusFile"]')`. -/

/-- The tab container and syllabus-file anchor of a course landing page. -/
structure TabsPage where
  tabHrefs : Option (List Str)
  syllabusFileHref : Option Str
deriving DecidableEq

/-- The `urls` dict built by `extract_course_urls` (it only ever holds
these five keys). -/
structure CourseUrls where
  syllabus : Option Str
  groups : Option Str
  scores : Option Str
  files : Option Str
  syllabus_file : Option Str
deriving DecidableEq

/-- Python `pat in s` substring test. -/
def containsL (pat : Str) : Str → Bool
  | [] => pat.isPrefixOf []
  | c :: t => pat.isPrefixOf (c :: t) || containsL pat t

/-- Embedding of the anchor classification chain of `extract_course_urls`:
`if "silabus" in href: ... elif "groups" ... elif "scores" ... elif
"files" ...`, each branch storing the joined URL under its key. -/
def classifyTab (u : CourseUrls) (h : Str) : CourseUrls :=
  if containsL "silabus".data h then { u with syllabus := Option.some (urljoinBase h) }
  else if containsL "groups".data h then { u with groups := Option.some (urljoinBase h) }
  else if containsL "scores".data h then { u with scores := Option.some (urljoinBase h) }
  else if containsL "files".data h then { u with files := Option.some (urljoinBase h) }
  else u

/-- Embedding of `extract_course_urls`: fold the classification over the
tab anchors (if the container exists), then store the syllabus-file URL
(if that anchor exists). -/
def extract_course_urls (p : TabsPage) : CourseUrls :=
  let u0 : CourseUrls := ⟨Option.none, Option.none, Option.none, Option.none, Option.none⟩
  let u1 := match p.tabHrefs with
    | Option.none => u0
    | Option.some hs => hs.foldl classifyTab u0
  match p.syllabusFileHref with
  | Option.none => u1
  | Option.some h => { u1 with syllabus_file := Option.some (urljoinBase h) }

example :
    extract_course_urls ⟨some ["/ge/silabus/9".data, "/ge/scores/9".data], none⟩ =
      ⟨some "https://classroom.btu.edu.ge/ge/silabus/9".data, none,
        some "https://classroom.btu.edu.ge/ge/scores/9".data, none, none⟩ := by decide
example : extract_course_urls ⟨none, none⟩ = ⟨none, none, none, none, none⟩ := by decide

/-! ## parse_scores (main.py, lines 149-180)

`h4` models `soup.select_one(".tab_scores h4")`: its `text` is
`h4.get_text(" ", strip=True)` and `lectorText` is the stripped text of
`h4.select_one("a[href*='/lector/']")` when that anchor exists.  `rows`
models `soup.select_one(".tab_scores table")` (absent table gives
`Option.none`) with, per row of `table.select("tbody tr")`, the list of
`td.get_text(strip=True)` values of `tr.find_all("td")`. -/

/-- The scores heading, reduced to what `parse_scores` queries. -/
structure H4Block where
  text : Str
  lectorText : Option Str
deriving DecidableEq

/-- A scores sub-page, reduced to what `parse_scores` queries. -/
structure ScoresPage where
  h4 : Option H4Block
  rows : Option (List (List Str))
deriving DecidableEq

/-- One assessment dict produced by `parse_scores`. -/
structure Assessment where
  component : Str
  score : Option Str
  max_points : Option Dec
deriving DecidableEq

/-- The dict produced by `parse_scores`. -/
structure ScoreBlock where
  group : Option Str
  lector : Option Str
  assessments : List Assessment
deriving DecidableEq

/-- Part of a string before its first occurrence of `pat` (the whole
string when `pat` does not occur): Python `s.split(pat, 1)[0]` for the
nonempty separators used here. -/
def splitFirst (pat : Str) : Str → Str
  | [] => []
  | c :: t => if pat.isPrefixOf (c :: t) then [] else c :: splitFirst pat t

/-- Fuel-driven core of Python `str.replace(pat, rep)`: left-to-right,
non-overlapping (one unit of fuel per character position suffices). -/
def replaceAllF (pat rep : Str) : Nat → Str → Str
  | _, [] => []
  | 0, l => l
  | fuel + 1, c :: t =>
    if pat ≠ [] ∧ pat.isPrefixOf (c :: t) then
      rep ++ replaceAllF pat rep fuel ((c :: t).drop pat.length)
    else c :: replaceAllF pat rep fuel t

/-- Model of Python `str.replace(pat, rep)` for nonempty `pat`. -/
def replaceAllL (pat rep l : Str) : Str := replaceAllF pat rep l.length l

/-- Character class `[\d.,]` of the max-points pattern. -/
def isMaxDigit (c : Char) : Bool := isDigitC c || c == '.' || c == ','

/-- Model of matching the tail `\.?\s*([\d.,]+)` of the pattern
`max\.?\s*([\d.,]+)` at a fixed position (`l` starts right after a literal
`max`), returning group 1: the optional period is consumed greedily and
given back if the rest of the pattern then fails. -/
def maxGroupFrom (l : Str) : Option Str :=
  let tryTail := fun (r : Str) =>
    let g := (r.dropWhile isPySpace).takeWhile isMaxDigit
    if g = [] then Option.none else Option.some g
  match l with
  | '.' :: rest => (tryTail rest).orElse (fun _ => tryTail l)
  | _ => tryTail l

/-- Model of `re.search(r'max\.?\s*([\d.,]+)', component)`: the leftmost
position where the whole pattern matches wins, and its group 1 is
returned.  The pattern begins with the literal (case-sensitive) `max`. -/
def searchMax : Str → Option Str
  | [] => Option.none
  | c :: rest =>
    if c = 'm' ∧ "ax".data.isPrefixOf rest then
      match maxGroupFrom (rest.drop 2) with
      | Option.some g => Option.some g
      | Option.none => searchMax rest
    else searchMax rest

/-- Embedding of the max-points extraction of `parse_scores`: on a match,
`float(match.group(1).replace(",", "."))` guarded by `except ValueError`. -/
def maxPointsOf (component : Str) : Option Dec :=
  match searchMax component with
  | Option.none => Option.none
  | Option.some g => pyFloat? (commaToDot g)

/-- The reserved total label of the scores table. -/
def TOTAL_LBL : Str := "სულ".data

/-- The reserved credits label of the scores table. -/
def CREDITS_LBL : Str := "Credits".data

/-- The exam-eligibility marker phrase of the scores table. -/
def ELIG_MARK : Str := "გამოცდაზე გასვლის".data

/-- Embedding of the row loop of `parse_scores`: keep two-cell rows whose
first cell is nonempty and is neither reserved label nor carries the
eligibility marker; the second cell is the raw score (`score or None`). -/
def scoresLoop : List (List Str) → List Assessment
  | [] => []
  | tds :: rs =>
    match tds with
    | [component, score] =>
      if component = TOTAL_LBL ∨ component = CREDITS_LBL ∨ containsL ELIG_MARK component then
        scoresLoop rs
      else if component ≠ [] then
        ⟨component, if score = [] then Option.none else Option.some score,
          maxPointsOf component⟩ :: scoresLoop rs
      else scoresLoop rs
    | _ => scoresLoop rs

/-- Embedding of `parse_scores`: group from the heading when its text
contains `"Group"` (prefix before the first `" - "`, with every `"Group"`
removed, stripped), lector from the heading's lector anchor, assessments
from the table rows. -/
def parse_scores (p : ScoresPage) : ScoreBlock :=
  let grp := match p.h4 with
    | Option.none => Option.none
    | Option.some h =>
      if containsL "Group".data h.text then
        Option.some (pyStripL (replaceAllL "Group".data [] (splitFirst " - ".data h.text)))
      else Option.none
  let lect := match p.h4 with
    | Option.none => Option.none
    | Option.some h => h.lectorText
  let items := match p.rows with
    | Option.none => []
    | Option.some rs => scoresLoop rs
  ⟨grp, lect, items⟩

example : maxPointsOf "Midterm (max. 30)".data = some ⟨30, 0⟩ := by decide
example : maxPointsOf "Final max 40".data = some ⟨40, 0⟩ := by decide
example : maxPointsOf "Quiz (Max 10)".data = Option.none := by decide
example : maxPointsOf "max ..,".data = Option.none := by decide
example : maxPointsOf "quiz".data = Option.none := by decide
example :
    parse_scores ⟨some ⟨"Group 2513 - John Doe".data, some "John Doe".data⟩,
      some [["Midterm (max. 30)".data, "28,5".data]]⟩ =
      ⟨some "2513".data, some "John Doe".data,
        [⟨"Midterm (max. 30)".data, some "28,5".data, some ⟨30, 0⟩⟩]⟩ := by decide

/-! ## parse_files (main.py, lines 182-211)

`parse_files` walks `soup.select_one("#files")` (absent table gives
`Option.none`) row by row (`table.find_all("tr")`).  Per row: `lectorText`
is the stripped text of `tr.select_one("a[href*='/lector/']")` when that
anchor exists, `classes` is `tr.get("class") or []`, and `tds` is
`tr.find_all("td")`.  Per cell: `text` is `td.get_text(strip=True)`,
`uploadsHref` is the `href` of `td.select_one("a[href*='/uploads/']")`
when that anchor exists (the selector guarantees the attribute), and
`anchorHref` is `td.select_one("a")`: `Option.none` when the cell has no
anchor, `some h` when it has one, where `h` is its optional `href`
attribute — `Tag["href"]` on an anchor without the attribute raises
`KeyError`, modelled as `Except.error`. -/

/-- One `<td>` of the files table. -/
structure FCell where
  text : Str
  uploadsHref : Option Str
  anchorHref : Option (Option Str)
deriving DecidableEq

/-- One `<tr>` of the files table. -/
structure FRow where
  classes : List Str
  lectorText : Option Str
  tds : List FCell
deriving DecidableEq

/-- One material dict produced by `parse_files`. -/
structure MaterialEntry where
  name : Str
  url : Option Str
  external_url : Option Str
deriving DecidableEq

deriving instance DecidableEq for Except

/-- Python truthiness of an `Optional[str]`. -/
def pyTruthy : Option Str → Bool
  | Option.none => false
  | Option.some s => !s.isEmpty

/-- Embedding of the row loop of `parse_files`, threading the
`current_lector` accumulator.  A lector-anchor row with the `info` class
updates the accumulator; rows outside the caller's lector's section are
skipped; otherwise a material is emitted from the first cell (name, upload
URL) and second cell (external URL — where an anchor without `href`
raises `KeyError`), provided the name is nonempty. -/
def filesLoop (myL : Option Str) : Option Str → List FRow → Except Unit (List MaterialEntry)
  | _, [] => Except.ok []
  | cur, r :: rs =>
    if r.lectorText.isSome ∧ "info".data ∈ r.classes then
      filesLoop myL r.lectorText rs
    else if pyTruthy myL ∧ pyTruthy cur ∧ pyLower (cur.getD []) ≠ pyLower (myL.getD []) then
      filesLoop myL cur rs
    else
      match r.tds with
      | [] => filesLoop myL cur rs
      | t0 :: rest =>
        let url := match t0.uploadsHref with
          | Option.some h => if h ≠ [] then Option.some (urljoinBase h) else Option.none
          | Option.none => Option.none
        let extE : Except Unit (Option Str) := match rest with
          | [] => Except.ok Option.none
          | t1 :: _ =>
            match t1.anchorHref with
            | Option.none => Except.ok Option.none
            | Option.some Option.none => Except.error ()
            | Option.some (Option.some h) =>
              Except.ok (Option.some (if h = [] then h else urljoinBase h))
        match extE with
        | Except.error e => Except.error e
        | Except.ok ext =>
          match filesLoop myL cur rs with
          | Except.error e => Except.error e
          | Except.ok ms =>
            Except.ok (if t0.text ≠ [] then ⟨t0.text, url, ext⟩ :: ms else ms)

/-- Embedding of `parse_files`: absent `#files` table gives `[]`;
otherwise the row loop runs with `current_lector = None`. -/
def parse_files (table : Option (List FRow)) (my_lector : Option Str) :
    Except Unit (List MaterialEntry) :=
  match table with
  | Option.none => Except.ok []
  | Option.some rows => filesLoop my_lector Option.none rows

/-! ## parse_groups (main.py, lines 213-225)

The input models `soup.select_one("#groups")` (absent table gives
`Option.none`); per row of `table.find_all("tr")`, `classes` is
`tr.get("class") or []` and `text` is `tr.get_text(strip=True)`. -/

/-- One `<tr>` of the groups table. -/
structure GRow where
  classes : List Str
  text : Str
deriving DecidableEq

/-- Embedding of the row loop of `parse_groups`. -/
def groupsLoop : List GRow → List Str
  | [] => []
  | r :: rs =>
    if "warning".data ∈ r.classes then groupsLoop rs
    else if r.text ≠ [] ∧ ¬ containsL "Not found".data r.text then
      r.text :: groupsLoop rs
    else groupsLoop rs

/-- Embedding of `parse_groups` (the returned dict's single `groups`
entry): absent table gives `[]`. -/
def parse_groups (table : Option (List GRow)) : List Str :=
  match table with
  | Option.none => []
  | Option.some rows => groupsLoop rows

example :
    parse_groups (some [⟨[], "Group 1".data⟩, ⟨["warning".data], "Group 2".data⟩,
      ⟨[], "Not found".data⟩, ⟨[], [] ⟩]) = ["Group 1".data] := by decide
example :
    parse_files (some [⟨[], Option.none,
      [⟨"Notes".data, Option.none, Option.none⟩,
       ⟨[], Option.none, Option.some Option.none⟩]⟩]) Option.none =
      Except.error () := by decide

/-! ## Helper lemmas about the string primitives -/

theorem dropWhile_all_false (p : Char → Bool) (l : Str) (h : ∀ c ∈ l, p c = false) :
    l.dropWhile p = l := by
  cases l with
  | nil => rfl
  | cons c t => simp [List.dropWhile_cons, h c (by simp)]

theorem pyStripL_all_false (l : Str) (h : ∀ c ∈ l, isPySpace c = false) :
    pyStripL l = l := by
  unfold pyStripL dropTrail
  rw [dropWhile_all_false _ _ h, dropWhile_all_false, List.reverse_reverse]
  intro c hc
  exact h c (List.mem_reverse.mp hc)

theorem commaToDot_all_ne (l : Str) (h : ∀ c ∈ l, c ≠ ',') : commaToDot l = l := by
  induction l with
  | nil => rfl
  | cons c t ih =>
    have hc : (c == ',') = false := by
      simpa using h c (by simp)
    simp only [commaToDot, List.map_cons, hc, if_neg Bool.false_ne_true]
    rw [show List.map (fun c => if (c == ',') = true then '.' else c) t = commaToDot t from rfl,
      ih (fun c hc => h c (by simp [hc]))]

theorem dropWhile_idem (p : Char → Bool) (l : Str) :
    (l.dropWhile p).dropWhile p = l.dropWhile p := by
  induction l with
  | nil => rfl
  | cons c t ih =>
    by_cases hp : p c
    · simp [List.dropWhile_cons, hp, ih]
    · simp [List.dropWhile_cons, hp]

theorem dropWhile_suffix_my (p : Char → Bool) (l : Str) : l.dropWhile p <:+ l := by
  induction l with
  | nil => exact ⟨[], rfl⟩
  | cons c t ih =>
    by_cases hp : p c
    · obtain ⟨w, hw⟩ := ih
      exact ⟨c :: w, by simp [List.dropWhile_cons, hp, hw]⟩
    · exact ⟨[], by simp [List.dropWhile_cons, hp]⟩

theorem dropTrail_takes (p : Char → Bool) (m : Str) : dropTrail p m <+: m := by
  have hsuf := dropWhile_suffix_my p m.reverse
  obtain ⟨w, hw⟩ := hsuf
  refine ⟨w.reverse, ?_⟩
  have := congrArg List.reverse hw
  simpa [dropTrail] using this

theorem dropWhile_dropTrail (p : Char → Bool) (m : Str) (hm : m.dropWhile p = m) :
    (dropTrail p m).dropWhile p = dropTrail p m := by
  cases hdt : dropTrail p m with
  | nil => rfl
  | cons c t =>
    obtain ⟨t', ht'⟩ := hdt ▸ dropTrail_takes p m
    have hc : p c = false := by
      by_cases hp : p c
      · rw [← ht'] at hm
        simp only [List.cons_append, List.dropWhile_cons, hp] at hm
        rw [if_pos trivial] at hm
        obtain ⟨w, hw⟩ := dropWhile_suffix_my p (t ++ t')
        rw [hm] at hw
        have hlen := congrArg List.length hw
        simp at hlen
        omega
      · exact Bool.eq_false_iff.mpr hp
    simp [List.dropWhile_cons, hc]

theorem dropTrail_idem (p : Char → Bool) (m : Str) :
    dropTrail p (dropTrail p m) = dropTrail p m := by
  unfold dropTrail
  rw [List.reverse_reverse, dropWhile_idem]

theorem pyStripL_idem (l : Str) : pyStripL (pyStripL l) = pyStripL l := by
  unfold pyStripL
  rw [dropWhile_dropTrail isPySpace _ (dropWhile_idem isPySpace l), dropTrail_idem]

theorem isPySpace_commaSwap (c : Char) :
    isPySpace (if (c == ',') = true then '.' else c) = isPySpace c := by
  by_cases h : c = ','
  · subst h; decide
  · simp [h]

theorem dropWhile_commaToDot (x : Str) :
    (commaToDot x).dropWhile isPySpace = commaToDot (x.dropWhile isPySpace) := by
  induction x with
  | nil => rfl
  | cons c t ih =>
    simp only [commaToDot, List.map_cons, List.dropWhile_cons, isPySpace_commaSwap]
    by_cases hc : isPySpace c
    · simpa [hc, commaToDot] using ih
    · simp [hc]

theorem reverse_commaToDot (x : Str) : (commaToDot x).reverse = commaToDot x.reverse := by
  simp [commaToDot, List.map_reverse]

theorem pyStripL_commaToDot (x : Str) :
    pyStripL (commaToDot x) = commaToDot (pyStripL x) := by
  unfold pyStripL dropTrail
  rw [dropWhile_commaToDot, reverse_commaToDot, dropWhile_commaToDot, reverse_commaToDot]

theorem strip_commaToDot_strip (s : Str) :
    pyStripL (commaToDot (pyStripL s)) = commaToDot (pyStripL s) := by
  rw [pyStripL_commaToDot, pyStripL_idem]

theorem parse_num_some_eq (s : Str) :
    parse_num (Option.some s) =
      (match pyFloat? (commaToDot (pyStripL s)) with
       | Option.some d => PyVal.num d
       | Option.none => PyVal.str (commaToDot (pyStripL s))) := by
  unfold parse_num
  cases h : pyFloat? (commaToDot (pyStripL s)) with
  | none => simp [h, strip_commaToDot_strip]
  | some d => simp [h]

/-! ## Claim C2 -/

/-- C2 counterexample: on the empty string, `parse_num` does not return the
absent value; the `float("")` failure path returns the stripped text, which
is the empty string itself. -/
theorem c2_empty_input_not_absent :
    parse_num (Option.some []) = PyVal.str [] ∧ PyVal.str [] ≠ PyVal.none := by decide

/-- C2 (amended): `parse_num` returns absent exactly on absent input; on
any string it trims whitespace, replaces every comma with a period, and
returns the float value when conversion succeeds, or the post-replacement
trimmed string itself when it fails (the source's final re-strip is a
no-op; in particular empty input yields the empty string, not absent).
Totality of the embedding reflects that no exception escapes. -/
theorem c2_parse_num_normalization :
    parse_num Option.none = PyVal.none ∧
    parse_num (Option.some []) = PyVal.str [] ∧
    (∀ s : Str, parse_num (Option.some s) =
      match pyFloat? (commaToDot (pyStripL s)) with
      | Option.some d => PyVal.num d
      | Option.none => PyVal.str (commaToDot (pyStripL s))) := by
  exact ⟨rfl, by decide, parse_num_some_eq⟩

/-! ## Claim C4 -/

/-- C4: the claimed totality fails in `parse_files`.  On a row whose second
cell holds an anchor without an `href` attribute, `ext_link["href"]`
(main.py, line 206) raises `KeyError` instead of recording an absent
external URL, so `parse_files` does not return normally. -/
theorem c4_parse_files_keyerror :
    parse_files
      (Option.some [⟨[], Option.none,
        [⟨"Notes".data, Option.none, Option.none⟩,
          ⟨[], Option.none, Option.some Option.none⟩]⟩])
      Option.none = Except.error () := by decide

/-! ## Claim C8 -/

/-- Row classification of `parse_groups` as the spec states it: warning
rows and rows containing the `Not found` sentinel are excluded, every
remaining nonempty row text is one entry. -/
def groupOfSpec (r : GRow) : Option Str :=
  if "warning".data ∈ r.classes then Option.none
  else if containsL "Not found".data r.text then Option.none
  else if r.text ≠ [] then Option.some r.text
  else Option.none

theorem groupsLoop_eq_filterMap (rows : List GRow) :
    groupsLoop rows = rows.filterMap groupOfSpec := by
  induction rows with
  | nil => rfl
  | cons r rs ih =>
    by_cases h1 : "warning".data ∈ r.classes
    · simp [groupsLoop, groupOfSpec, h1, ih]
    · by_cases h2 : containsL "Not found".data r.text
      · simp [groupsLoop, groupOfSpec, h1, h2, ih]
      · by_cases h3 : r.text = []
        · simp [groupsLoop, groupOfSpec, h1, h2, h3, ih]
        · simp [groupsLoop, groupOfSpec, h1, h2, h3, ih]

/-- C8: `parse_groups` drops exactly the warning-marked rows and the rows
whose text contains the `Not found` sentinel, keeps every other nonempty
row text in document order, and maps an absent table to the empty group
list rather than an error. -/
theorem c8_parse_groups_spec :
    ∀ t : Option (List GRow), parse_groups t = (t.getD []).filterMap groupOfSpec := by
  intro t
  cases t with
  | none => rfl
  | some rows => simpa [parse_groups] using groupsLoop_eq_filterMap rows

/-! ## Claim C6 -/

/-- Row classification of the assessments loop as the spec states it: a
two-cell row with nonempty component that is neither reserved label nor
eligibility row yields one assessment (raw score text, absent when empty);
every other row yields nothing. -/
def assessOfSpec (tds : List Str) : Option Assessment :=
  match tds with
  | [component, score] =>
    if component ≠ [] ∧ component ≠ TOTAL_LBL ∧ component ≠ CREDITS_LBL ∧
        ¬ containsL ELIG_MARK component then
      Option.some ⟨component,
        if score = [] then Option.none else Option.some score,
        maxPointsOf component⟩
    else Option.none
  | _ => Option.none

theorem scoresLoop_eq_filterMap (rows : List (List Str)) :
    scoresLoop rows = rows.filterMap assessOfSpec := by
  induction rows with
  | nil => rfl
  | cons tds rs ih =>
    rcases tds with _ | ⟨c0, _ | ⟨c1, rest⟩⟩
    · simp [scoresLoop, assessOfSpec, ih]
    · simp [scoresLoop, assessOfSpec, ih]
    · rcases rest with _ | ⟨c2, rest'⟩
      · by_cases h1 : c0 = TOTAL_LBL ∨ c0 = CREDITS_LBL ∨ containsL ELIG_MARK c0
        · have hn : assessOfSpec [c0, c1] = Option.none := by
            rcases h1 with h | h | h <;> simp [assessOfSpec, h]
          simp [scoresLoop, if_pos h1, hn, ih, List.filterMap_cons]
        · by_cases h2 : c0 = []
          · subst h2
            have hn : assessOfSpec [([] : Str), c1] = Option.none := by
              simp [assessOfSpec]
            simp [scoresLoop, if_neg h1, hn, ih, List.filterMap_cons]
          · have h1' := h1
            push_neg at h1'
            have hcond : c0 ≠ [] ∧ c0 ≠ TOTAL_LBL ∧ c0 ≠ CREDITS_LBL ∧
                ¬ containsL ELIG_MARK c0 := by
              refine ⟨h2, h1'.1, h1'.2.1, ?_⟩
              simpa using h1'.2.2
            have hy : assessOfSpec [c0, c1] =
                Option.some ⟨c0, if c1 = [] then Option.none else Option.some c1,
                  maxPointsOf c0⟩ := by
              simp [assessOfSpec, hcond]
            simp [scoresLoop, if_neg h1, h2, hy, ih, List.filterMap_cons]
      · simp [scoresLoop, assessOfSpec, ih]

/-- C6: the assessments of `parse_scores` are exactly the two-cell body
rows with a nonempty component that is neither a reserved total/credits
label nor an eligibility row, each carrying the raw score text (absent
when the cell is empty), in document order; any other cell count
contributes nothing. -/
theorem c6_parse_scores_assessments :
    ∀ p : ScoresPage, (parse_scores p).assessments = (p.rows.getD []).filterMap assessOfSpec := by
  intro p
  rcases p with ⟨h4, rows⟩
  cases rows with
  | none => cases h4 <;> rfl
  | some rs =>
    simp [parse_scores, scoresLoop_eq_filterMap]

/-! ## Claim C1 -/

/-- Course extraction from a single row as the spec states it: exactly six
cells give one course — name from the third cell's first anchor (falling
back to the raw cell text), grade from the fourth cell, ECTS from the
sixth, URL from the anchor's href resolved to absolute when relative. -/
def courseOfSpec (r : CRow) : Option Course :=
  match r.tds with
  | [_, _, t2, t3, _, t5] =>
    Option.some
      ⟨(match t2.firstA with
        | Option.some a => a.text
        | Option.none => t2.text),
        parse_num (Option.some t3.text), parse_num (Option.some t5.text),
        resolveCourseUrl (t2.firstA.bind Anchor.href)⟩
  | _ => Option.none

/-- An aggregate row: exactly two cells, the first with empty text. -/
def isAggRow (r : CRow) : Bool :=
  match r.tds with
  | [t0, _] => t0.text.isEmpty
  | _ => false

/-- The last cell's text of a row (`tds[-1]`). -/
def aggCellText (r : CRow) : Str := (r.tds.getLastD ⟨[], Option.none⟩).text

/-- The last aggregate row of a row list, if any (later rows win). -/
def lastAgg? : List CRow → Option CRow
  | [] => Option.none
  | r :: rs =>
    match lastAgg? rs with
    | Option.some x => Option.some x
    | Option.none => if isAggRow r then Option.some r else Option.none

/-- The total as the spec states it: the numerically normalized second
cell of the last aggregate row, absent when there is none. -/
def totalOfSpec (rows : List CRow) : PyVal :=
  match lastAgg? rows with
  | Option.some r => parse_num (Option.some (aggCellText r))
  | Option.none => PyVal.none

theorem courseRowsLoop_eq (rows : List CRow) :
    ∀ tot : PyVal, courseRowsLoop rows tot =
      (rows.filterMap courseOfSpec,
        match lastAgg? rows with
        | Option.some r => parse_num (Option.some (aggCellText r))
        | Option.none => tot) := by
  induction rows with
  | nil => intro tot; rfl
  | cons r rs ih =>
    intro tot
    rcases r with ⟨tds⟩
    rcases tds with _ | ⟨t0, _ | ⟨t1, _ | ⟨t2, _ | ⟨t3, _ | ⟨t4, _ | ⟨t5, rest⟩⟩⟩⟩⟩⟩
    · cases hla : lastAgg? rs <;>
        simp [courseRowsLoop, courseOfSpec, isAggRow, lastAgg?, ih tot, hla]
    · cases hla : lastAgg? rs <;>
        simp [courseRowsLoop, courseOfSpec, isAggRow, lastAgg?, ih tot, hla]
    · by_cases ht : t0.text = []
      · cases hla : lastAgg? rs <;>
          simp [courseRowsLoop, courseOfSpec, isAggRow, lastAgg?, aggCellText, ht,
            ih (parse_num (Option.some t1.text)), hla]
      · have ht' : t0.text.isEmpty = false := by
          simpa [List.isEmpty_iff] using ht
        cases hla : lastAgg? rs <;>
          simp [courseRowsLoop, courseOfSpec, isAggRow, lastAgg?, ht, ht', ih tot, hla]
    · cases hla : lastAgg? rs <;>
        simp [courseRowsLoop, courseOfSpec, isAggRow, lastAgg?, ih tot, hla]
    · cases hla : lastAgg? rs <;>
        simp [courseRowsLoop, courseOfSpec, isAggRow, lastAgg?, ih tot, hla]
    · cases hla : lastAgg? rs <;>
        simp [courseRowsLoop, courseOfSpec, isAggRow, lastAgg?, ih tot, hla]
    · rcases rest with _ | ⟨t6, rest'⟩
      · cases hla : lastAgg? rs <;>
          simp [courseRowsLoop, courseOfSpec, isAggRow, lastAgg?, ih tot, hla,
            List.filterMap_cons]
      · cases hla : lastAgg? rs <;>
          simp [courseRowsLoop, courseOfSpec, isAggRow, lastAgg?, ih tot, hla]

/-- C1: `parse_courses` classifies rows exactly as claimed — the courses
are the filterMap of the six-cell extraction over the body rows in
document order, the total is the normalized second cell of the last
aggregate row (two cells, empty first cell; last one wins), rows of any
other shape contribute nothing, and an absent marker table or body yields
`([], None)` rather than an error. -/
theorem c1_parse_courses_spec :
    ∀ p : CoursePage,
      parse_courses p =
        (((p.table.getD Option.none).getD []).filterMap courseOfSpec,
          totalOfSpec ((p.table.getD Option.none).getD [])) := by
  intro p
  rcases p with ⟨_ | ⟨_ | rows⟩⟩
  · rfl
  · rfl
  · simpa [parse_courses, totalOfSpec] using courseRowsLoop_eq rows PyVal.none

/-! ## Claim C10 -/

/-- C10: whenever the heading text contains `"Group"`, `parse_scores`
always produces a group value — the prefix before the first `" - "`
(defaulting to the whole text when the separator is absent, so an embedded
lector name stays in the group) with every occurrence of `"Group"`
replaced away and the result stripped.  The closed conjuncts exhibit the
no-separator default and a non-leading occurrence being removed. -/
theorem c10_group_always_produced :
    (∀ h4txt lect rows, containsL "Group".data h4txt →
      (parse_scores ⟨Option.some ⟨h4txt, lect⟩, rows⟩).group =
        Option.some (pyStripL (replaceAllL "Group".data []
          (splitFirst " - ".data h4txt)))) ∧
    (∀ t : Str, ¬ containsL " - ".data t → splitFirst " - ".data t = t) ∧
    (parse_scores ⟨Option.some ⟨"Group A7 Dr Who".data, Option.none⟩,
      Option.none⟩).group = Option.some "A7 Dr Who".data ∧
    (parse_scores ⟨Option.some ⟨"XGroupY Group - Z".data, Option.none⟩,
      Option.none⟩).group = Option.some "XY".data := by
  refine ⟨?_, ?_, by decide, by decide⟩
  · intro h4txt lect rows h
    simp [parse_scores, h]
  · intro t h
    induction t with
    | nil => rfl
    | cons c t ih =>
      simp only [containsL, Bool.or_eq_true] at h
      push_neg at h
      simp [splitFirst, h.1, ih h.2]

theorem c10_witness :
    (parse_scores ⟨Option.some ⟨"Group 101 - X Y".data, Option.none⟩,
      Option.none⟩).group =
      Option.some (pyStripL (replaceAllL "Group".data []
        (splitFirst " - ".data "Group 101 - X Y".data))) ∧
    splitFirst " - ".data "GroupQ".data = "GroupQ".data :=
  ⟨c10_group_always_produced.1 _ _ _ (by decide),
    c10_group_always_produced.2.1 _ (by decide)⟩

/-! ## Claim C3 -/

/-- Modelled from the spec, for comparison only: the claimed
case-insensitive variant of the max-points search (the `max` letters
matched regardless of case). -/
def searchMaxCI : Str → Option Str
  | [] => Option.none
  | c :: rest =>
    if Char.toLower c = 'm' ∧ pyLower (rest.take 2) = "ax".data then
      match maxGroupFrom (rest.drop 2) with
      | Option.some g => Option.some g
      | Option.none => searchMaxCI rest
    else searchMaxCI rest

/-- Modelled from the spec, for comparison only: max-points extraction
with the claimed case-insensitive search. -/
def maxPointsOfCI (component : Str) : Option Dec :=
  match searchMaxCI component with
  | Option.none => Option.none
  | Option.some g => pyFloat? (commaToDot g)

/-- C3 counterexample: the regex `max\.?\s*([\d.,]+)` carries no
ignore-case flag, so the component `"Max 30"` — which the claimed
case-insensitive search would match with value 30 — yields an absent
`max_points` from the code. -/
theorem c3_case_sensitivity_cex :
    maxPointsOf "Max 30".data = Option.none ∧
    maxPointsOfCI "Max 30".data = Option.some ⟨30, 0⟩ ∧
    (parse_scores ⟨Option.none, Option.some [["Max 30".data, "5".data]]⟩).assessments =
      [⟨"Max 30".data, Option.some "5".data, Option.none⟩] := by decide

/-- C3 (amended): the component is searched for the `max <number>` pattern
case-sensitively (lowercase `max` only), with an optional period after
`max` and a comma-or-period decimal separator; on a match the normalized
numeral becomes `max_points` (the spec's own example evaluates to 30.0);
with no match, or with a malformed numeral inside a match, `max_points`
is absent and no error is raised. -/
theorem c3_max_points_spec :
    ((parse_scores ⟨Option.none,
      Option.some [["Midterm (max. 30)".data, "28,5".data]]⟩).assessments =
      [⟨"Midterm (max. 30)".data, Option.some "28,5".data, Option.some ⟨30, 0⟩⟩]) ∧
    maxPointsOf "max ..,".data = Option.none ∧
    (∀ c : Str, searchMax c = Option.none → maxPointsOf c = Option.none) ∧
    (∀ c g : Str, searchMax c = Option.some g →
      maxPointsOf c = pyFloat? (commaToDot g)) := by
  refine ⟨by decide, by decide, ?_, ?_⟩
  · intro c h
    simp [maxPointsOf, h]
  · intro c g h
    simp [maxPointsOf, h]

theorem c3_witness :
    searchMax "Final max 40".data = Option.some "40".data ∧
    maxPointsOf "Final max 40".data = pyFloat? (commaToDot "40".data) :=
  ⟨by decide, c3_max_points_spec.2.2.2 _ _ (by decide)⟩

/-! ## Claim C7 -/

/-- The four tab kinds of the classification chain. -/
inductive TabKind where
  | sy : TabKind
  | gr : TabKind
  | sc : TabKind
  | fi : TabKind
deriving DecidableEq, Fintype

/-- The substring the code actually tests for each tab kind (note
`silabus`, the portal's spelling, for the syllabus tab). -/
def kwOf : TabKind → Str
  | TabKind.sy => "silabus".data
  | TabKind.gr => "groups".data
  | TabKind.sc => "scores".data
  | TabKind.fi => "files".data

/-- Store a resolved URL under a tab kind's key. -/
def setTab : TabKind → CourseUrls → Str → CourseUrls
  | TabKind.sy, u, h => { u with syllabus := Option.some (urljoinBase h) }
  | TabKind.gr, u, h => { u with groups := Option.some (urljoinBase h) }
  | TabKind.sc, u, h => { u with scores := Option.some (urljoinBase h) }
  | TabKind.fi, u, h => { u with files := Option.some (urljoinBase h) }

/-- The classification chain parameterized by the order in which the
keywords are tested; the first match wins. -/
def chainTabs : List TabKind → CourseUrls → Str → CourseUrls
  | [], u, _ => u
  | k :: ks, u, h => if containsL (kwOf k) h then setTab k u h else chainTabs ks u h

/-- C7 counterexample: classification is not priority-independent and the
matched substring is `silabus`, not `syllabus`.  The href
`la-silabus-groups` matches the `groups` keyword yet is recorded only
under `syllabus` (the first branch of the chain), and an href containing
the claimed set element `syllabus` matches nothing at all. -/
theorem c7_priority_cex :
    containsL "groups".data "la-silabus-groups".data = true ∧
    (extract_course_urls ⟨Option.some ["la-silabus-groups".data],
      Option.none⟩).groups = Option.none ∧
    (extract_course_urls ⟨Option.some ["la-silabus-groups".data],
      Option.none⟩).syllabus = Option.some (urljoinBase "la-silabus-groups".data) ∧
    containsL "syllabus".data "/en/syllabus/7".data = true ∧
    extract_course_urls ⟨Option.some ["/en/syllabus/7".data], Option.none⟩ =
      ⟨Option.none, Option.none, Option.none, Option.none, Option.none⟩ := by decide

/-- C7 (amended): `extract_course_urls` classifies each href-bearing tab
anchor by substring match against the keywords silabus, groups, scores,
files, tested in that fixed order with the first match winning; for an
href matching at most one keyword the testing order is irrelevant; the
syllabus-file anchor is classified separately as `syllabus_file`; missing
tabs are simply absent keys, never an error. -/
theorem c7_tab_classification_spec :
    (∀ u h, classifyTab u h =
      chainTabs [TabKind.sy, TabKind.gr, TabKind.sc, TabKind.fi] u h) ∧
    (∀ o₁ o₂ : List TabKind, ∀ u h, o₁.Perm o₂ →
      (∀ k₁ k₂ : TabKind, containsL (kwOf k₁) h → containsL (kwOf k₂) h → k₁ = k₂) →
      chainTabs o₁ u h = chainTabs o₂ u h) ∧
    extract_course_urls ⟨Option.none, Option.none⟩ =
      ⟨Option.none, Option.none, Option.none, Option.none, Option.none⟩ ∧
    (∀ tabs h, (extract_course_urls ⟨tabs, Option.some h⟩).syllabus_file =
      Option.some (urljoinBase h)) := by
  refine ⟨fun u h => rfl, ?_, by decide, ?_⟩
  · intro o₁ o₂ u h hperm hdisj
    induction hperm with
    | nil => rfl
    | cons k _ ih =>
      by_cases hk : containsL (kwOf k) h
      · simp [chainTabs, hk]
      · simp [chainTabs, hk, ih]
    | swap a b l =>
      by_cases hb : containsL (kwOf b) h
      · by_cases ha : containsL (kwOf a) h
        · have hab : a = b := hdisj a b ha hb
          subst hab
          rfl
        · simp [chainTabs, ha, hb]
      · by_cases ha : containsL (kwOf a) h
        · simp [chainTabs, ha, hb]
        · simp [chainTabs, ha, hb]
    | trans h₁ h₂ ih₁ ih₂ => rw [ih₁, ih₂]
  · intro tabs h
    cases tabs <;> rfl

theorem c7_witness :
    chainTabs [TabKind.gr, TabKind.sy]
        ⟨Option.none, Option.none, Option.none, Option.none, Option.none⟩
        "/en/groups/5".data =
      chainTabs [TabKind.sy, TabKind.gr]
        ⟨Option.none, Option.none, Option.none, Option.none, Option.none⟩
        "/en/groups/5".data :=
  c7_tab_classification_spec.2.1 _ _ _ _ (by decide) (by decide)

/-! ## Claim C5 -/

/-- Pair each row with the value of the `current_lector` accumulator at
the moment the row is examined (section headers update it for the rows
after them). -/
def lectorsThread (cur : Option Str) : List FRow → List (Option Str × FRow)
  | [] => []
  | r :: rs =>
    if r.lectorText.isSome ∧ "info".data ∈ r.classes then
      (cur, r) :: lectorsThread r.lectorText rs
    else (cur, r) :: lectorsThread cur rs

/-- Per-row emission as the spec states it: a section header emits
nothing; a row outside the caller's lector's section is skipped; otherwise
the first cell gives the name and uploads URL, the second cell's anchor
the external URL, and the row is kept only with a nonempty name. -/
def materialOfSpec (myL cur : Option Str) (r : FRow) : Option MaterialEntry :=
  if r.lectorText.isSome ∧ "info".data ∈ r.classes then Option.none
  else if pyTruthy myL ∧ pyTruthy cur ∧ pyLower (cur.getD []) ≠ pyLower (myL.getD []) then
    Option.none
  else
    match r.tds with
    | [] => Option.none
    | t0 :: rest =>
      if t0.text ≠ [] then
        Option.some ⟨t0.text,
          (match t0.uploadsHref with
           | Option.some h => if h ≠ [] then Option.some (urljoinBase h) else Option.none
           | Option.none => Option.none),
          (match rest with
           | [] => Option.none
           | t1 :: _ =>
             match t1.anchorHref with
             | Option.some (Option.some h) =>
               Option.some (if h = [] then h else urljoinBase h)
             | _ => Option.none)⟩
      else Option.none

/-- A row on which the second-cell `KeyError` of claim C4 cannot fire: no
second-cell anchor lacking an `href`. -/
def rowExtSafe (r : FRow) : Bool :=
  match r.tds with
  | _ :: t1 :: _ => t1.anchorHref != Option.some Option.none
  | _ => true

theorem filesLoop_eq (myL : Option Str) :
    ∀ (rows : List FRow) (cur : Option Str), (∀ r ∈ rows, rowExtSafe r) →
      filesLoop myL cur rows =
        Except.ok ((lectorsThread cur rows).filterMap
          (fun cr => materialOfSpec myL cr.1 cr.2)) := by
  intro rows
  induction rows with
  | nil => intro cur _; rfl
  | cons r rs ih =>
    intro cur hsafe
    have hsafe_r : rowExtSafe r := hsafe r (by simp)
    have hsafe_rs : ∀ x ∈ rs, rowExtSafe x := fun x hx => hsafe x (by simp [hx])
    by_cases hH : r.lectorText.isSome ∧ "info".data ∈ r.classes
    · have hm : materialOfSpec myL cur r = Option.none := by
        simp [materialOfSpec, hH]
      simp [filesLoop, hH, lectorsThread, List.filterMap_cons, hm, ih _ hsafe_rs]
    · by_cases hS : pyTruthy myL ∧ pyTruthy cur ∧ pyLower (cur.getD []) ≠ pyLower (myL.getD [])
      · have hm : materialOfSpec myL cur r = Option.none := by
          simp [materialOfSpec, hH, hS]
        simp [filesLoop, hH, hS, lectorsThread, List.filterMap_cons, hm, ih _ hsafe_rs]
      · rcases htds : r.tds with _ | ⟨t0, rest⟩
        · have hm : materialOfSpec myL cur r = Option.none := by
            simp [materialOfSpec, hH, hS, htds]
          simp [filesLoop, hH, hS, htds, lectorsThread, List.filterMap_cons, hm,
            ih _ hsafe_rs]
        · rcases hrest : rest with _ | ⟨t1, rest'⟩
          · simp only [filesLoop, hH, hS, htds, hrest, lectorsThread,
              List.filterMap_cons, materialOfSpec, ih _ hsafe_rs, if_neg hH, if_neg hS]
            by_cases hname : t0.text = [] <;>
              simp [hname, htds, hrest, hH, hS, List.filterMap_cons]
          · rcases hA : t1.anchorHref with _ | ⟨_ | h⟩
            · simp only [filesLoop, hH, hS, htds, hrest, hA, lectorsThread,
                List.filterMap_cons, materialOfSpec, ih _ hsafe_rs, if_neg hH, if_neg hS]
              by_cases hname : t0.text = [] <;>
                simp [hname, htds, hrest, hA, hH, hS, List.filterMap_cons]
            · rw [rowExtSafe] at hsafe_r
              rw [htds, hrest] at hsafe_r
              simp [hA] at hsafe_r
            · simp only [filesLoop, hH, hS, htds, hrest, hA, lectorsThread,
                List.filterMap_cons, materialOfSpec, ih _ hsafe_rs, if_neg hH, if_neg hS]
              by_cases hname : t0.text = [] <;>
                simp [hname, htds, hrest, hA, hH, hS, List.filterMap_cons]

/-- C5: on inputs free of the claim-C4 `KeyError`, `parse_files` is the
claimed single linear scan: each row is handled under the
`current_lector` in force at that row (absent before any section header,
so such rows are never filtered); section headers (lector anchor plus
`info` class) update the section and emit nothing; a row is skipped
exactly when `my_lector` is given, the section lector is known and the
two differ case-insensitively; every other row emits name, resolved
uploads URL and resolved external URL, kept only when the name is
nonempty, in document order. -/
theorem c5_parse_files_spec :
    ∀ (rows : List FRow) (myL : Option Str), (∀ r ∈ rows, rowExtSafe r) →
      parse_files (Option.some rows) myL =
        Except.ok ((lectorsThread Option.none rows).filterMap
          (fun cr => materialOfSpec myL cr.1 cr.2)) := by
  intro rows myL h
  simpa [parse_files] using filesLoop_eq myL rows Option.none h

/-- Sample files table: a pre-header row, a Jones section with one
material, then a SMITH section with one uploaded material. -/
def sampleFilesRows : List FRow :=
  [⟨[], Option.none, [⟨"Pre".data, Option.none, Option.none⟩]⟩,
    ⟨["info".data], Option.some "Jones".data, []⟩,
    ⟨[], Option.none, [⟨"A".data, Option.none, Option.none⟩]⟩,
    ⟨["info".data], Option.some "SMITH".data, []⟩,
    ⟨[], Option.none, [⟨"B".data, Option.some "/uploads/b.pdf".data, Option.none⟩]⟩]

example :
    parse_files (Option.some sampleFilesRows) (Option.some "Smith".data) =
      Except.ok [⟨"Pre".data, Option.none, Option.none⟩,
        ⟨"B".data, Option.some "https://classroom.btu.edu.ge/uploads/b.pdf".data,
          Option.none⟩] := by decide

theorem c5_witness :
    (∀ r ∈ sampleFilesRows, rowExtSafe r) ∧
    parse_files (Option.some sampleFilesRows) (Option.some "Smith".data) =
      Except.ok ((lectorsThread Option.none sampleFilesRows).filterMap
        (fun cr => materialOfSpec (Option.some "Smith".data) cr.1 cr.2)) :=
  ⟨by decide, c5_parse_files_spec sampleFilesRows (Option.some "Smith".data) (by decide)⟩

/-! ## Claim C9: rendering floats back to strings

`decStr` models Python `str()` on the float values of the model: sign,
integer digits, a point, and the fractional digits with no trailing zero
(canonical `Dec` values render exactly as Python prints floats in the
magnitude range the scraper meets; outside plain-notation range Python
switches to exponent notation, which — like exponent parsing — is outside
the model on both sides, so round-tripping is preserved). -/

/-- Little-endian base-10 digits of `n` (`fuel ≥ n` suffices). -/
def natDigitsF : Nat → Nat → List Nat
  | 0, _ => []
  | _ + 1, 0 => []
  | fuel + 1, n + 1 => ((n + 1) % 10) :: natDigitsF fuel ((n + 1) / 10)

/-- Big-endian digit characters of `n` (empty for zero). -/
def natChars (n : Nat) : Str :=
  ((natDigitsF n n).map (fun d => Char.ofNat (48 + d))).reverse

/-- Big-endian digit characters of `n` (`"0"` for zero). -/
def natCharsNE (n : Nat) : Str := if n = 0 then ['0'] else natChars n

/-- The unsigned body of the rendered float `m / 10 ^ e`. -/
def bodyChars (m : Nat) : Nat → Str
  | 0 => natCharsNE m ++ ['.', '0']
  | e + 1 =>
    natCharsNE (m / 10 ^ (e + 1)) ++ '.' ::
      (List.replicate ((e + 1) - (natChars (m % 10 ^ (e + 1))).length) '0' ++
        natChars (m % 10 ^ (e + 1)))

/-- Model of Python `str()` on a float given as a scaled decimal. -/
def decStr (d : Dec) : Str :=
  if d.mant < 0 then '-' :: bodyChars d.mant.natAbs d.exp
  else bodyChars d.mant.natAbs d.exp

example : decStr ⟨285, 1⟩ = "28.5".data := by decide
example : decStr ⟨-102, 2⟩ = "-1.02".data := by decide
example : decStr ⟨30, 0⟩ = "30.0".data := by decide
example : decStr ⟨5, 2⟩ = "0.05".data := by decide

theorem chr_toNat (d : Nat) (h : d < 10) : (Char.ofNat (48 + d)).toNat = 48 + d := by
  interval_cases d <;> decide

theorem chr_isDigit (d : Nat) (h : d < 10) : isDigitC (Char.ofNat (48 + d)) = true := by
  interval_cases d <;> decide

theorem isDigitC_props (c : Char) (h : isDigitC c = true) :
    c ≠ '.' ∧ c ≠ ',' ∧ c ≠ '+' ∧ c ≠ '-' ∧ isPySpace c = false := by
  refine ⟨?_, ?_, ?_, ?_, ?_⟩
  · rintro rfl; exact absurd h (by decide)
  · rintro rfl; exact absurd h (by decide)
  · rintro rfl; exact absurd h (by decide)
  · rintro rfl; exact absurd h (by decide)
  · by_cases hs : isPySpace c = false
    · exact hs
    · have hs' : isPySpace c = true := by
        cases hps : isPySpace c
        · exact absurd hps hs
        · rfl
      exfalso
      simp only [isPySpace, Bool.or_eq_true, beq_iff_eq] at hs'
      rcases hs' with ((((rfl | rfl) | rfl) | rfl) | rfl) | rfl <;>
        exact absurd h (by decide)

theorem natDigitsF_lt : ∀ fuel n d, d ∈ natDigitsF fuel n → d < 10 := by
  intro fuel
  induction fuel with
  | zero => intro n d hd; simp [natDigitsF] at hd
  | succ fuel ih =>
    intro n d hd
    match n with
    | 0 => simp [natDigitsF] at hd
    | n + 1 =>
      simp only [natDigitsF, List.mem_cons] at hd
      rcases hd with rfl | hd
      · exact Nat.mod_lt _ (by norm_num)
      · exact ih _ _ hd

theorem natDigitsF_sound : ∀ fuel n, n ≤ fuel → Nat.ofDigits 10 (natDigitsF fuel n) = n := by
  intro fuel
  induction fuel with
  | zero =>
    intro n hn
    have : n = 0 := Nat.le_zero.mp hn
    subst this
    rfl
  | succ fuel ih =>
    intro n hn
    match n with
    | 0 => rfl
    | n + 1 =>
      have hdiv : (n + 1) / 10 ≤ fuel := by
        have := Nat.div_lt_self (Nat.succ_pos n) (show 1 < 10 by norm_num)
        omega
      simp only [natDigitsF, Nat.ofDigits_cons, ih _ hdiv]
      omega

theorem natDigitsF_len : ∀ fuel n k, n < 10 ^ k → (natDigitsF fuel n).length ≤ k := by
  intro fuel
  induction fuel with
  | zero => intro n k _; simp [natDigitsF]
  | succ fuel ih =>
    intro n k hn
    match n with
    | 0 => simp [natDigitsF]
    | n + 1 =>
      cases k with
      | zero => simp at hn
      | succ k =>
        simp only [natDigitsF, List.length_cons]
        have hlt : (n + 1) / 10 < 10 ^ k := by
          rw [Nat.div_lt_iff_lt_mul (show 0 < 10 by norm_num)]
          calc n + 1 < 10 ^ (k + 1) := hn
          _ = 10 ^ k * 10 := by ring
        have := ih _ _ hlt
        omega

theorem foldl_digits_aux (L : List Nat) (hL : ∀ d ∈ L, d < 10) :
    ∀ a : Nat, ((L.map (fun d => Char.ofNat (48 + d))).reverse).foldl
      (fun acc c => 10 * acc + (c.toNat - 48)) a =
      a * 10 ^ L.length + Nat.ofDigits 10 L := by
  induction L with
  | nil => intro a; simp
  | cons d L ih =>
    intro a
    have hd : d < 10 := hL d (by simp)
    have hL' : ∀ x ∈ L, x < 10 := fun x hx => hL x (by simp [hx])
    simp only [List.map_cons, List.reverse_cons, List.foldl_append, List.foldl_cons,
      List.foldl_nil, ih hL' a]
    rw [chr_toNat d hd]
    simp only [Nat.ofDigits_cons, List.length_cons]
    ring_nf
    omega

theorem digitsVal_natChars (n : Nat) : digitsVal (natChars n) = n := by
  unfold digitsVal natChars
  rw [foldl_digits_aux _ (natDigitsF_lt n n) 0]
  simp [natDigitsF_sound n n le_rfl]

theorem digitsVal_natCharsNE (n : Nat) : digitsVal (natCharsNE n) = n := by
  unfold natCharsNE
  by_cases h : n = 0
  · subst h; decide
  · simp [h, digitsVal_natChars]

theorem natChars_digits (n : Nat) : ∀ c ∈ natChars n, isDigitC c = true := by
  intro c hc
  unfold natChars at hc
  rw [List.mem_reverse] at hc
  obtain ⟨d, hd, rfl⟩ := List.mem_map.mp hc
  exact chr_isDigit d (natDigitsF_lt n n d hd)

theorem natCharsNE_digits (n : Nat) : ∀ c ∈ natCharsNE n, isDigitC c = true := by
  intro c hc
  unfold natCharsNE at hc
  by_cases h : n = 0
  · simp [h] at hc; subst hc; decide
  · simp only [if_neg h] at hc
    exact natChars_digits n c hc

theorem natCharsNE_ne_nil (n : Nat) : natCharsNE n ≠ [] := by
  match n with
  | 0 => simp [natCharsNE]
  | k + 1 =>
    simp [natCharsNE, natChars, natDigitsF]

theorem split_at_dot (xs ys : Str) (h : ∀ c ∈ xs, c ≠ '.') :
    (xs ++ '.' :: ys).takeWhile (fun c => c ≠ '.') = xs ∧
    (xs ++ '.' :: ys).dropWhile (fun c => c ≠ '.') = '.' :: ys := by
  induction xs with
  | nil =>
    constructor
    · simp [List.takeWhile_cons]
    · simp [List.dropWhile_cons]
  | cons c t ih =>
    have hc : c ≠ '.' := h c (by simp)
    have iht := ih fun x hx => h x (by simp [hx])
    constructor
    · simp only [List.cons_append, List.takeWhile_cons]
      rw [if_pos (by simpa using hc), iht.1]
    · simp only [List.cons_append, List.dropWhile_cons]
      rw [if_pos (by simpa using hc), iht.2]

theorem digitsVal_replicate_zero (z : Nat) (xs : Str) :
    digitsVal (List.replicate z '0' ++ xs) = digitsVal xs := by
  induction z with
  | zero => simp
  | succ z ih =>
    simp only [List.replicate_succ, List.cons_append]
    exact ih

theorem decNorm_ten (m : Int) : decNorm (m * 10) 1 = ⟨m, 0⟩ := by
  have h0 : (m * 10) % 10 = 0 := by omega
  unfold decNorm
  simp [decNormF, h0, Dec.mk.injEq]

theorem decNorm_stuck (m : Int) (e : Nat) (hm : m % 10 ≠ 0) :
    decNorm m (e + 1) = ⟨m, e + 1⟩ := by
  unfold decNorm
  simp [decNormF, hm]

theorem pyFloatUnsigned_split (l xs ys : Str)
    (h1 : l.takeWhile (fun c => c ≠ '.') = xs)
    (h2 : l.dropWhile (fun c => c ≠ '.') = '.' :: ys) :
    pyFloatUnsigned? l =
      if (xs ≠ [] ∨ ys ≠ []) ∧ xs.all isDigitC ∧ ys.all isDigitC then
        Option.some (decNorm ((digitsVal xs : Int) * 10 ^ ys.length +
          (digitsVal ys : Int)) ys.length)
      else Option.none := by
  simp only [pyFloatUnsigned?]
  rw [h1, h2]

theorem pyFloatUnsigned_bodyChars (m : Nat) :
    ∀ e : Nat, (e = 0 ∨ ¬ (10 ∣ m)) →
      pyFloatUnsigned? (bodyChars m e) = Option.some ⟨(m : Int), e⟩ := by
  intro e h
  cases e with
  | zero =>
    have hdig := natCharsNE_digits m
    have hnotdot : ∀ c ∈ natCharsNE m, c ≠ '.' :=
      fun c hc => (isDigitC_props c (hdig c hc)).1
    have hsplit := split_at_dot (natCharsNE m) ['0'] hnotdot
    have hne := natCharsNE_ne_nil m
    have hcond : (natCharsNE m ≠ [] ∨ (['0'] : Str) ≠ []) ∧
        (natCharsNE m).all isDigitC ∧ (['0'] : Str).all isDigitC := by
      refine ⟨Or.inl hne, ?_, by decide⟩
      rw [List.all_eq_true]
      exact hdig
    have hbody : bodyChars m 0 = natCharsNE m ++ '.' :: ['0'] := rfl
    rw [hbody, pyFloatUnsigned_split _ _ _ hsplit.1 hsplit.2, if_pos hcond]
    simp only [Option.some.injEq]
    rw [show ((['0'] : Str).length) = 1 from rfl, digitsVal_natCharsNE,
      show digitsVal ['0'] = 0 from rfl]
    calc decNorm ((m : Int) * 10 ^ 1 + ((0 : Nat) : Int)) 1
        = decNorm ((m : Int) * 10) 1 := by norm_num
      _ = ⟨(m : Int), 0⟩ := decNorm_ten (m : Int)
  | succ e' =>
    have hm : ¬ 10 ∣ m := by
      rcases h with h0 | hm
      · exact absurd h0 (Nat.succ_ne_zero e')
      · exact hm
    have hPpos : 0 < 10 ^ (e' + 1) := pow_pos (by norm_num) _
    have hF : m % 10 ^ (e' + 1) < 10 ^ (e' + 1) := Nat.mod_lt _ hPpos
    have hlen : (natChars (m % 10 ^ (e' + 1))).length ≤ e' + 1 := by
      have := natDigitsF_len (m % 10 ^ (e' + 1)) (m % 10 ^ (e' + 1)) (e' + 1) hF
      simpa [natChars] using this
    have hfrac_digits : ∀ c ∈ (List.replicate
        ((e' + 1) - (natChars (m % 10 ^ (e' + 1))).length) '0' ++
          natChars (m % 10 ^ (e' + 1))), isDigitC c = true := by
      intro c hc
      rcases List.mem_append.mp hc with hc | hc
      · rw [List.eq_of_mem_replicate hc]; decide
      · exact natChars_digits _ c hc
    have hnotdot_ip : ∀ c ∈ natCharsNE (m / 10 ^ (e' + 1)), c ≠ '.' :=
      fun c hc => (isDigitC_props c (natCharsNE_digits _ c hc)).1
    have hsplit := split_at_dot (natCharsNE (m / 10 ^ (e' + 1)))
      (List.replicate ((e' + 1) - (natChars (m % 10 ^ (e' + 1))).length) '0' ++
        natChars (m % 10 ^ (e' + 1))) hnotdot_ip
    have hfraclen : (List.replicate
        ((e' + 1) - (natChars (m % 10 ^ (e' + 1))).length) '0' ++
          natChars (m % 10 ^ (e' + 1))).length = e' + 1 := by
      simp only [List.length_append, List.length_replicate]
      omega
    have hfracval : digitsVal (List.replicate
        ((e' + 1) - (natChars (m % 10 ^ (e' + 1))).length) '0' ++
          natChars (m % 10 ^ (e' + 1))) = m % 10 ^ (e' + 1) := by
      rw [digitsVal_replicate_zero, digitsVal_natChars]
    have hcond : (natCharsNE (m / 10 ^ (e' + 1)) ≠ [] ∨ (List.replicate
        ((e' + 1) - (natChars (m % 10 ^ (e' + 1))).length) '0' ++
          natChars (m % 10 ^ (e' + 1))) ≠ []) ∧
        (natCharsNE (m / 10 ^ (e' + 1))).all isDigitC ∧
        (List.replicate ((e' + 1) - (natChars (m % 10 ^ (e' + 1))).length) '0' ++
          natChars (m % 10 ^ (e' + 1))).all isDigitC := by
      refine ⟨Or.inl (natCharsNE_ne_nil _), ?_, ?_⟩
      · rw [List.all_eq_true]
        exact natCharsNE_digits _
      · rw [List.all_eq_true]
        exact hfrac_digits
    have hbody : bodyChars m (e' + 1) = natCharsNE (m / 10 ^ (e' + 1)) ++ '.' ::
        (List.replicate ((e' + 1) - (natChars (m % 10 ^ (e' + 1))).length) '0' ++
          natChars (m % 10 ^ (e' + 1))) := rfl
    rw [hbody, pyFloatUnsigned_split _ _ _ hsplit.1 hsplit.2, if_pos hcond]
    simp only [Option.some.injEq]
    rw [hfraclen, digitsVal_natCharsNE, hfracval]
    have hIF : ((m / 10 ^ (e' + 1) : Nat) : Int) * 10 ^ (e' + 1) +
        ((m % 10 ^ (e' + 1) : Nat) : Int) = (m : Int) := by
      have hd := Nat.div_add_mod m (10 ^ (e' + 1))
      zify at hd
      push_cast
      rw [mul_comm]
      exact_mod_cast hd
    rw [hIF]
    refine decNorm_stuck (m : Int) e' ?_
    have hmod : m % 10 ≠ 0 := fun h0 => hm (Nat.dvd_of_mod_eq_zero h0)
    omega

theorem bodyChars_chars (m e : Nat) :
    ∀ c ∈ bodyChars m e, isDigitC c = true ∨ c = '.' := by
  intro c hc
  cases e with
  | zero =>
    rcases List.mem_append.mp hc with hc | hc
    · exact Or.inl (natCharsNE_digits m c hc)
    · simp only [List.mem_cons] at hc
      rcases hc with rfl | rfl | hc
      · exact Or.inr rfl
      · exact Or.inl (by decide)
      · simp at hc
  | succ e' =>
    rcases List.mem_append.mp hc with hc | hc
    · exact Or.inl (natCharsNE_digits _ c hc)
    · simp only [List.mem_cons] at hc
      rcases hc with rfl | hc
      · exact Or.inr rfl
      · rcases List.mem_append.mp hc with hc | hc
        · rw [List.eq_of_mem_replicate hc]
          exact Or.inl (by decide)
        · exact Or.inl (natChars_digits _ c hc)

theorem decStr_chars (d : Dec) :
    ∀ c ∈ decStr d, isPySpace c = false ∧ c ≠ ',' := by
  have hbody : ∀ c ∈ bodyChars d.mant.natAbs d.exp, isPySpace c = false ∧ c ≠ ',' := by
    intro c hc
    rcases bodyChars_chars _ _ c hc with hd | rfl
    · exact ⟨(isDigitC_props c hd).2.2.2.2, (isDigitC_props c hd).2.1⟩
    · exact ⟨by decide, by decide⟩
  intro c hc
  unfold decStr at hc
  by_cases hneg : d.mant < 0
  · rw [if_pos hneg] at hc
    rcases List.mem_cons.mp hc with rfl | hc
    · exact ⟨by decide, by decide⟩
    · exact hbody c hc
  · rw [if_neg hneg] at hc
    exact hbody c hc

theorem pyFloat_bodyChars (m e : Nat) (h : e = 0 ∨ ¬ (10 ∣ m)) :
    pyFloat? (bodyChars m e) = Option.some ⟨(m : Int), e⟩ := by
  have hhead : ∃ c rest, bodyChars m e = c :: rest ∧ isDigitC c = true := by
    cases e with
    | zero =>
      rcases hnc : natCharsNE m with _ | ⟨c0, cs⟩
      · exact absurd hnc (natCharsNE_ne_nil m)
      · refine ⟨c0, cs ++ '.' :: ['0'], ?_, ?_⟩
        · show natCharsNE m ++ '.' :: ['0'] = c0 :: (cs ++ '.' :: ['0'])
          rw [hnc]
          rfl
        · exact natCharsNE_digits m c0 (by rw [hnc]; simp)
    | succ e' =>
      rcases hnc : natCharsNE (m / 10 ^ (e' + 1)) with _ | ⟨c0, cs⟩
      · exact absurd hnc (natCharsNE_ne_nil _)
      · refine ⟨c0, cs ++ '.' ::
          (List.replicate ((e' + 1) - (natChars (m % 10 ^ (e' + 1))).length) '0' ++
            natChars (m % 10 ^ (e' + 1))), ?_, ?_⟩
        · show natCharsNE (m / 10 ^ (e' + 1)) ++ '.' :: _ = _
          rw [hnc]
          rfl
        · exact natCharsNE_digits _ c0 (by rw [hnc]; simp)
  obtain ⟨c, rest, hcr, hdig⟩ := hhead
  have hprops := isDigitC_props c hdig
  rw [hcr]
  simp only [pyFloat?]
  rw [if_neg hprops.2.2.1, if_neg hprops.2.2.2.1, ← hcr]
  exact pyFloatUnsigned_bodyChars m e h

theorem decNormF_canon : ∀ (fuel : Nat) (m : Int) (e : Nat), e ≤ fuel →
    (decNormF fuel m e).exp = 0 ∨ ¬ ((10 : Int) ∣ (decNormF fuel m e).mant) := by
  intro fuel
  induction fuel with
  | zero =>
    intro m e he
    have he0 : e = 0 := Nat.le_zero.mp he
    subst he0
    exact Or.inl rfl
  | succ fuel ih =>
    intro m e he
    match e with
    | 0 => exact Or.inl rfl
    | e + 1 =>
      have hstep : decNormF (fuel + 1) m (e + 1) =
          if m % 10 = 0 then decNormF fuel (m / 10) e else ⟨m, e + 1⟩ := rfl
      by_cases hm : m % 10 = 0
      · rw [hstep, if_pos hm]
        exact ih _ _ (by omega)
      · rw [hstep, if_neg hm]
        exact Or.inr fun hdvd => hm (Int.emod_eq_zero_of_dvd hdvd)

theorem pyFloatUnsigned_canon (l : Str) (d : Dec)
    (h : pyFloatUnsigned? l = Option.some d) :
    d.exp = 0 ∨ ¬ ((10 : Int) ∣ d.mant) := by
  simp only [pyFloatUnsigned?] at h
  split at h
  · split at h
    · injection h with h'
      subst h'
      exact Or.inl rfl
    · exact absurd h (by simp)
  · split at h
    · injection h with h'
      subst h'
      exact decNormF_canon _ _ _ le_rfl
    · exact absurd h (by simp)

theorem pyFloat_canon (l : Str) (d : Dec) (h : pyFloat? l = Option.some d) :
    d.exp = 0 ∨ ¬ ((10 : Int) ∣ d.mant) := by
  cases l with
  | nil => simp [pyFloat?] at h
  | cons c r =>
    simp only [pyFloat?] at h
    by_cases hp : c = '+'
    · rw [if_pos hp] at h
      exact pyFloatUnsigned_canon r d h
    · rw [if_neg hp] at h
      by_cases hmn : c = '-'
      · rw [if_pos hmn] at h
        cases hu : pyFloatUnsigned? r with
        | none => rw [hu] at h; simp at h
        | some d0 =>
          rw [hu] at h
          simp only [Option.map_some'] at h
          injection h with h'
          subst h'
          rcases pyFloatUnsigned_canon r d0 hu with h0 | hnd
          · exact Or.inl h0
          · right
            simpa [Int.dvd_neg] using hnd
      · rw [if_neg hmn] at h
        exact pyFloatUnsigned_canon _ d h

theorem parse_num_canon (s : Str) (d : Dec)
    (h : parse_num (Option.some s) = PyVal.num d) :
    d.exp = 0 ∨ ¬ ((10 : Int) ∣ d.mant) := by
  rw [parse_num_some_eq] at h
  cases hf : pyFloat? (commaToDot (pyStripL s)) with
  | none => rw [hf] at h; simp at h
  | some q =>
    rw [hf] at h
    simp only [PyVal.num.injEq] at h
    subst h
    exact pyFloat_canon _ _ hf

theorem parse_num_decStr (d : Dec) (hc : d.exp = 0 ∨ ¬ ((10 : Int) ∣ d.mant)) :
    parse_num (Option.some (decStr d)) = PyVal.num d := by
  have hchars := decStr_chars d
  have hstrip : pyStripL (decStr d) = decStr d :=
    pyStripL_all_false _ (fun c hc' => (hchars c hc').1)
  have hrepl : commaToDot (decStr d) = decStr d :=
    commaToDot_all_ne _ (fun c hc' => (hchars c hc').2)
  have hcanon : d.exp = 0 ∨ ¬ (10 ∣ d.mant.natAbs) := by
    rcases hc with h0 | hnd
    · exact Or.inl h0
    · exact Or.inr fun hdvd => hnd (Int.natAbs_dvd_natAbs.mp hdvd)
  have hfl : pyFloat? (decStr d) = Option.some d := by
    unfold decStr
    by_cases hneg : d.mant < 0
    · rw [if_pos hneg]
      have hne : ¬ (('-' : Char) = '+') := by decide
      simp only [pyFloat?, if_neg hne, if_pos rfl]
      rw [pyFloatUnsigned_bodyChars d.mant.natAbs d.exp hcanon]
      simp only [Option.map_some', Option.some.injEq]
      rw [Int.ofNat_natAbs_of_nonpos (le_of_lt hneg), neg_neg]
      rw [if_pos trivial]
    · rw [if_neg hneg]
      rw [pyFloat_bodyChars d.mant.natAbs d.exp hcanon]
      simp only [Option.some.injEq]
      rw [Int.natAbs_of_nonneg (not_lt.mp hneg)]
  rw [parse_num_some_eq, hstrip, hrepl, hfl]

/-- C9: `parse_num` is idempotent on its own float output — rendering any
returned float back to its string form and re-parsing returns the same
float — and for any optionally-signed decimal numeral the comma form and
the period form parse to the same value. -/
theorem c9_parse_num_roundtrip :
    (∀ (s : Str) (d : Dec), parse_num (Option.some s) = PyVal.num d →
      parse_num (Option.some (decStr d)) = PyVal.num d) ∧
    (∀ sg d1 d2 : Str, (sg = [] ∨ sg = ['+'] ∨ sg = ['-']) →
      d1.all isDigitC → d2.all isDigitC →
      parse_num (Option.some (sg ++ d1 ++ ',' :: d2)) =
        parse_num (Option.some (sg ++ d1 ++ '.' :: d2))) := by
  constructor
  · intro s d h
    exact parse_num_decStr d (parse_num_canon s d h)
  · intro sg d1 d2 hsg h1 h2
    have hsgprops : ∀ c ∈ sg, isPySpace c = false ∧ c ≠ ',' := by
      rcases hsg with rfl | rfl | rfl
      · intro c hcm; simp at hcm
      · intro c hcm
        simp only [List.mem_singleton] at hcm
        subst hcm
        exact ⟨by decide, by decide⟩
      · intro c hcm
        simp only [List.mem_singleton] at hcm
        subst hcm
        exact ⟨by decide, by decide⟩
    have hdigprops : ∀ l : Str, l.all isDigitC → ∀ c ∈ l,
        isPySpace c = false ∧ c ≠ ',' := by
      intro l hl c hcm
      have hd := List.all_eq_true.mp hl c hcm
      exact ⟨(isDigitC_props c hd).2.2.2.2, (isDigitC_props c hd).2.1⟩
    have hmemL : ∀ c ∈ sg ++ d1 ++ ',' :: d2, isPySpace c = false := by
      intro c hcm
      rcases List.mem_append.mp hcm with hcm | hcm
      · rcases List.mem_append.mp hcm with hcm | hcm
        · exact (hsgprops c hcm).1
        · exact (hdigprops d1 h1 c hcm).1
      · rcases List.mem_cons.mp hcm with rfl | hcm
        · decide
        · exact (hdigprops d2 h2 c hcm).1
    have hmemR : ∀ c ∈ sg ++ d1 ++ '.' :: d2, isPySpace c = false ∧ c ≠ ',' := by
      intro c hcm
      rcases List.mem_append.mp hcm with hcm | hcm
      · rcases List.mem_append.mp hcm with hcm | hcm
        · exact hsgprops c hcm
        · exact hdigprops d1 h1 c hcm
      · rcases List.mem_cons.mp hcm with rfl | hcm
        · exact ⟨by decide, by decide⟩
        · exact hdigprops d2 h2 c hcm
    have hstripL : pyStripL (sg ++ d1 ++ ',' :: d2) = sg ++ d1 ++ ',' :: d2 :=
      pyStripL_all_false _ hmemL
    have hstripR : pyStripL (sg ++ d1 ++ '.' :: d2) = sg ++ d1 ++ '.' :: d2 :=
      pyStripL_all_false _ (fun c hcm => (hmemR c hcm).1)
    have hsgmap : commaToDot sg = sg :=
      commaToDot_all_ne _ (fun c hcm => (hsgprops c hcm).2)
    have hd1map : commaToDot d1 = d1 :=
      commaToDot_all_ne _ (fun c hcm => (hdigprops d1 h1 c hcm).2)
    have hd2map : commaToDot d2 = d2 :=
      commaToDot_all_ne _ (fun c hcm => (hdigprops d2 h2 c hcm).2)
    have hreplL : commaToDot (sg ++ d1 ++ ',' :: d2) = sg ++ d1 ++ '.' :: d2 := by
      show List.map _ _ = _
      simp only [List.map_append, List.map_cons]
      rw [show List.map (fun c => if c == ',' then '.' else c) sg = commaToDot sg from rfl,
        show List.map (fun c => if c == ',' then '.' else c) d1 = commaToDot d1 from rfl,
        show List.map (fun c => if c == ',' then '.' else c) d2 = commaToDot d2 from rfl,
        hsgmap, hd1map, hd2map]
      rfl
    have hreplR : commaToDot (sg ++ d1 ++ '.' :: d2) = sg ++ d1 ++ '.' :: d2 :=
      commaToDot_all_ne _ (fun c hcm => (hmemR c hcm).2)
    rw [parse_num_some_eq, parse_num_some_eq, hstripL, hstripR, hreplL, hreplR]

theorem c9_witness :
    parse_num (Option.some "3,5".data) = PyVal.num ⟨35, 1⟩ ∧
    parse_num (Option.some (decStr ⟨35, 1⟩)) = PyVal.num ⟨35, 1⟩ ∧
    parse_num (Option.some "-1,5".data) = parse_num (Option.some "-1.5".data) :=
  ⟨by decide, c9_parse_num_roundtrip.1 "3,5".data ⟨35, 1⟩ (by decide),
    c9_parse_num_roundtrip.2 ['-'] ['1'] ['5'] (Or.inr (Or.inr rfl))
      (by decide) (by decide)⟩
